import Mathlib

/-!
Verification of the contact information detector of
src/contact_info_checker/contact_detector.py.

The detector compiles one email regex, eight Philippine phone regexes and
eight social-media regexes, and offers two entry points:
contains_contact_info (a boolean short-circuit check using re.search) and
detect_contact_info (a detailed report using re.findall on every pattern).

Every repetition operand in those regexes is a single character class, so
each compiled pattern is embedded here as a list of items: a character
class with a greedy bounded repetition count, an alternation, a word
boundary assertion, or a start-of-text assertion.  The matcher below
implements the backtracking semantics of the Python re module on this
fragment: leftmost match, greedy repetition (largest count first),
alternation tried left branch first, and word boundaries judged from the
characters immediately left and right of the current position.  Character
classes are modelled on the ASCII fragment of the Python semantics; the
regexes in the source only ever name ASCII characters.
-/

/-- Word character in the sense of the regex token backslash-w restricted
to ASCII: letters, digits and the underscore. -/
def wchar (c : Char) : Bool := c.isAlphanum || c == '_'

/-- Whitespace in the sense of the regex token backslash-s restricted to
ASCII. -/
def wsp (c : Char) : Bool :=
  c == ' ' || c == '\t' || c == '\n' || c == '\r' || c == '\x0b' || c == '\x0c'

/-- Decimal digit class, the regex token backslash-d on ASCII. -/
def digc (c : Char) : Bool := c.isDigit

/-- The separator class between digit groups in the phone regexes. -/
def sepc (c : Char) : Bool := c == '-' || c == '.' || wsp c

/-- Class holding exactly one character. -/
def chEq (a c : Char) : Bool := c == a

/-- Class holding one character compared case-insensitively, for the
patterns compiled with re.IGNORECASE. -/
def chEqI (a c : Char) : Bool := c.toLower == a

/-- Class of the local part of the email regex. -/
def emailLocalc (c : Char) : Bool :=
  c.isAlphanum || c == '.' || c == '_' || c == '%' || c == '+' || c == '-'

/-- Class of the domain part of the email regex. -/
def domainc (c : Char) : Bool := c.isAlphanum || c == '.' || c == '-'

/-- Plain letter class. -/
def alphac (c : Char) : Bool := c.isAlpha

/-- First character of a social media handle: letter or underscore. -/
def alphaUc (c : Char) : Bool := c.isAlpha || c == '_'

/-- Whitespace or opening parenthesis, the left context alternative of the
handle regex. -/
def spParenc (c : Char) : Bool := wsp c || c == '('

/-- Class of LinkedIn and GitHub handle characters. -/
def linkc (c : Char) : Bool := c.isAlphanum || c == '_' || c == '-'

/-- Class of Instagram handle characters. -/
def instac (c : Char) : Bool := c.isAlphanum || c == '_' || c == '.'

/-- Class of Facebook handle characters. -/
def fbc (c : Char) : Bool := c.isAlphanum || c == '.'

/-- Items of the embedded regexes.  cls p lo hi is a greedy repetition of
the character class p with at least lo and at most hi repetitions (no
upper bound when hi is none); alt is an alternation preferring the left
branch; seq is concatenation; wordB is the word boundary assertion; bol is
the start-of-text assertion (the regexes are compiled without MULTILINE,
so the caret matches only at position zero). -/
inductive RE where
  | cls (p : Char → Bool) (lo : Nat) (hi : Option Nat)
  | alt (a b : RE)
  | seq (a b : RE)
  | wordB
  | bol
  | eps

/-- A compiled pattern: the concatenation of its items. -/
abbrev Pat := List RE

/-- Structural size of an item, used to bound the recursion depth of the
matcher. -/
def reSize : RE → Nat
  | .cls _ _ _ => 1
  | .alt a b => 1 + reSize a + reSize b
  | .seq a b => 1 + reSize a + reSize b
  | .wordB => 1
  | .bol => 1
  | .eps => 1

/-- Size of a stack of items. -/
def stackM (rs : List RE) : Nat := (rs.map reSize).sum

/-- Word-character test on an optional character; absence of a character
(start or end of text) counts as a non-word character, as in the re
module. -/
def wOf : Option Char → Bool
  | none => false
  | some c => wchar c

/-- Minimum of a number and an optional upper bound. -/
def natMin (a : Nat) : Option Nat → Nat
  | none => a
  | some h => min a h

/-- The descending list hi, hi - 1, ..., lo given as the distance hi - lo
and lo; greedy repetition tries the largest count first. -/
def descFrom : Nat → Nat → List Nat
  | 0, lo => [lo]
  | k + 1, lo => (lo + k + 1) :: descFrom k lo

/-- The descending list of candidate repetition counts from hi down to lo,
empty when hi is below lo. -/
def descRange (hi lo : Nat) : List Nat :=
  if hi < lo then [] else descFrom (hi - lo) lo

/-- Backtracking matcher.  matchStk fuel rs pre rest tries to match the
stack of items rs at the current position, where pre is the reversed text
to the left of the position and rest the text from the position on.  It
returns the number of characters consumed by the first successful
alternative in the preference order of the re module, or none.  The fuel
only bounds the recursion depth; stackM rs + 1 is always enough. -/
def matchStk : Nat → List RE → List Char → List Char → Option Nat
  | 0, _, _, _ => none
  | _ + 1, [], _, _ => some 0
  | f + 1, RE.eps :: rs, pre, rest => matchStk f rs pre rest
  | f + 1, RE.seq a b :: rs, pre, rest => matchStk f (a :: b :: rs) pre rest
  | f + 1, RE.alt a b :: rs, pre, rest =>
    match matchStk f (a :: rs) pre rest with
    | some n => some n
    | none => matchStk f (b :: rs) pre rest
  | f + 1, RE.bol :: rs, pre, rest =>
    if pre.isEmpty then matchStk f rs pre rest else none
  | f + 1, RE.wordB :: rs, pre, rest =>
    if wOf pre.head? != wOf rest.head? then matchStk f rs pre rest else none
  | f + 1, RE.cls p lo hi :: rs, pre, rest =>
    (descRange (natMin (rest.takeWhile p).length hi) lo).findSome? fun n =>
      (matchStk f rs ((rest.take n).reverse ++ pre) (rest.drop n)).map fun m => n + m

/-- Leftmost match search, the model of Pattern.search.  Starting from the
position described by the zipper (pre, rest), it returns the zipper at the
first position admitting a match together with the consumed length. -/
def searchZ (p : Pat) : List Char → List Char → Option (List Char × Nat × List Char)
  | pre, [] =>
    (matchStk (stackM p + 1) p pre []).map fun n => (pre, n, ([] : List Char))
  | pre, c :: rest =>
    match matchStk (stackM p + 1) p pre (c :: rest) with
    | some n => some (pre, n, c :: rest)
    | none => searchZ p (c :: pre) rest

/-- Scan collecting all non-overlapping matches from the current position,
the model of Pattern.findall.  After a match of n characters the scan
resumes right after it; after an empty match it advances one character, as
the re module does.  The fuel rest.length + 1 is always enough. -/
def findAux (p : Pat) : Nat → List Char → List Char → List (List Char)
  | 0, _, _ => []
  | f + 1, pre, rest =>
    match searchZ p pre rest with
    | none => []
    | some (pre1, n, rest1) =>
      if n = 0 then
        [] :: (match rest1 with
          | [] => []
          | c :: rest2 => findAux p f (c :: pre1) rest2)
      else rest1.take n :: findAux p f ((rest1.take n).reverse ++ pre1) (rest1.drop n)

/-- All non-overlapping matches of a pattern in a text, leftmost first. -/
def findall (p : Pat) (l : List Char) : List (List Char) :=
  findAux p (l.length + 1) [] l

/-- Item matching one exact character. -/
def litc (a : Char) : RE := RE.cls (chEq a) 1 (some 1)

/-- Item matching one character case-insensitively. -/
def litci (a : Char) : RE := RE.cls (chEqI a) 1 (some 1)

/-- Items of a literal string. -/
def lits (s : String) : List RE := s.data.map litc

/-- Items of a literal string under re.IGNORECASE. -/
def litsi (s : String) : List RE := s.data.map litci

/-- A list of items as a single item, for alternation branches. -/
def seqList (rs : List RE) : RE := rs.foldr RE.seq RE.eps

/-- An optional single character of a class, the regex question mark. -/
def rep01 (p : Char → Bool) : RE := RE.cls p 0 (some 1)

/-- Exactly k characters of a class. -/
def repN (p : Char → Bool) (k : Nat) : RE := RE.cls p k (some k)

/-- One or more characters of a class, the regex plus. -/
def rep1 (p : Char → Bool) : RE := RE.cls p 1 none

/-- EMAIL_PATTERN of the source: local part, at sign, domain, dot, top
level domain of at least two letters. -/
def EMAIL_PATTERN : Pat :=
  [rep1 emailLocalc, litc '@', rep1 domainc, litc '.', RE.cls alphac 2 none]

/-- PH mobile with country code, first entry of PHONE_PATTERNS. -/
def PHONE1 : Pat :=
  lits "+63" ++ [rep01 sepc, litc '9', repN digc 2, rep01 sepc, repN digc 3, rep01 sepc, repN digc 4]

/-- PH mobile in local format, second entry of PHONE_PATTERNS. -/
def PHONE2 : Pat :=
  [RE.wordB, litc '0', litc '9', repN digc 2, rep01 sepc, repN digc 3, rep01 sepc, repN digc 4, RE.wordB]

/-- Metro Manila landline with country code, third entry of PHONE_PATTERNS. -/
def PHONE3 : Pat :=
  lits "+63" ++ [rep01 sepc, litc '2', rep01 sepc, repN digc 4, rep01 sepc, repN digc 4]

/-- Provincial landline with country code, fourth entry of PHONE_PATTERNS. -/
def PHONE4 : Pat :=
  lits "+63" ++ [rep01 sepc, repN digc 2, rep01 sepc, repN digc 3, rep01 sepc, repN digc 4]

/-- Metro Manila landline, fifth entry of PHONE_PATTERNS. -/
def PHONE5 : Pat :=
  [rep01 (chEq '('), RE.wordB, litc '0', litc '2', rep01 (chEq ')'), rep01 sepc, repN digc 4, rep01 sepc, repN digc 4, RE.wordB]

/-- Provincial landline, sixth entry of PHONE_PATTERNS. -/
def PHONE6 : Pat :=
  [rep01 (chEq '('), RE.wordB, litc '0', repN digc 2, rep01 (chEq ')'), rep01 sepc, repN digc 3, rep01 sepc, repN digc 4, RE.wordB]

/-- Raw eleven-digit mobile number, seventh entry of PHONE_PATTERNS. -/
def PHONE7 : Pat := [RE.wordB, litc '0', litc '9', repN digc 9, RE.wordB]

/-- Raw run of ten to twelve digits, eighth entry of PHONE_PATTERNS. -/
def PHONE8 : Pat := [RE.wordB, RE.cls digc 10 (some 12), RE.wordB]

/-- PHONE_PATTERNS of the source, in order. -/
def PHONE_PATTERNS : List Pat :=
  [PHONE1, PHONE2, PHONE3, PHONE4, PHONE5, PHONE6, PHONE7, PHONE8]

/-- Twitter or X handle, first entry of SOCIAL_PATTERNS. -/
def SOCIAL1 : Pat :=
  [RE.alt RE.bol (RE.cls spParenc 1 (some 1)), litc '@', RE.cls alphaUc 1 (some 1), RE.cls wchar 0 (some 14), RE.wordB]

/-- LinkedIn URL, second entry of SOCIAL_PATTERNS. -/
def SOCIAL2 : Pat := litsi "linkedin.com/in/" ++ [rep1 linkc]

/-- GitHub URL, third entry of SOCIAL_PATTERNS. -/
def SOCIAL3 : Pat := litsi "github.com/" ++ [rep1 linkc]

/-- Twitter or X URL, fourth entry of SOCIAL_PATTERNS. -/
def SOCIAL4 : Pat :=
  [RE.alt (seqList (litsi "twitter")) (seqList (litsi "x"))] ++ litsi ".com/" ++ [rep1 wchar]

/-- Instagram URL, fifth entry of SOCIAL_PATTERNS. -/
def SOCIAL5 : Pat := litsi "instagram.com/" ++ [rep1 instac]

/-- Facebook URL, sixth entry of SOCIAL_PATTERNS. -/
def SOCIAL6 : Pat := litsi "facebook.com/" ++ [rep1 fbc]

/-- Telegram URL, seventh entry of SOCIAL_PATTERNS. -/
def SOCIAL7 : Pat :=
  [RE.alt (seqList (litsi "t.me")) (seqList (litsi "telegram.me"))] ++ litsi "/" ++ [rep1 wchar]

/-- WhatsApp URL, eighth entry of SOCIAL_PATTERNS. -/
def SOCIAL8 : Pat := litsi "wa.me/" ++ [rep1 digc]

/-- SOCIAL_PATTERNS of the source, in order. -/
def SOCIAL_PATTERNS : List Pat :=
  [SOCIAL1, SOCIAL2, SOCIAL3, SOCIAL4, SOCIAL5, SOCIAL6, SOCIAL7, SOCIAL8]

/-- Boolean search of a pattern in a string, the truthiness of
Pattern.search. -/
def searchB (p : Pat) (t : String) : Bool := (searchZ p [] t.data).isSome

/-- All matches of a pattern in a string, as strings. -/
def findallStr (p : Pat) (t : String) : List String :=
  (findall p t.data).map fun l => String.mk l

/-- Truthiness of the optional text argument in Python: None and the empty
string are falsy, every other string is truthy. -/
def pyFalsy : Option String → Bool
  | none => true
  | some s => s.isEmpty

/-- The DetectionResult named tuple of the source.  The details dict is
modelled as an association list in insertion order. -/
structure DetectionResult where
  has_contact_info : Bool
  details : List (String × List String)
deriving DecidableEq

/-- Concatenation of the match lists of several patterns, the model of the
for loop extending one list by the findall result of each pattern. -/
def concatMap (f : Pat → List String) : List Pat → List String
  | [] => []
  | p :: ps => f p ++ concatMap f ps

/-- All matches of a category: every pattern is run, the results are
concatenated in pattern order and deduplicated, the model of
list(set(found)). -/
def catFind (ps : List Pat) (t : String) : List String :=
  (concatMap (fun p => findallStr p t) ps).dedup

/-- contains_contact_info of the source, parametrised by the pattern
table: false on falsy input, otherwise the email pattern is searched
first, then each phone pattern in order, then each social pattern in
order, with the first hit short-circuiting to true. -/
def containsWith (email : Pat) (phones socials : List Pat) (text : Option String) : Bool :=
  if pyFalsy text then false
  else
    let t := text.getD ""
    if searchB email t then true
    else if phones.any fun p => searchB p t then true
    else if socials.any fun p => searchB p t then true
    else false

/-- detect_contact_info of the source, parametrised by the pattern table:
on falsy input the result is negative with an empty details dict;
otherwise emails are the raw findall matches of the email pattern, phones
and social are the deduplicated concatenations of the findall matches of
their categories, and the flag is the disjunction of the three
non-emptiness tests. -/
def detectWith (email : Pat) (phones socials : List Pat) (text : Option String) : DetectionResult :=
  if pyFalsy text then ⟨false, []⟩
  else
    let t := text.getD ""
    let emails := findallStr email t
    let phonesF := catFind phones t
    let socialF := catFind socials t
    ⟨!(emails.isEmpty && phonesF.isEmpty && socialF.isEmpty),
      [("emails", emails), ("phones", phonesF), ("social", socialF)]⟩

/-- contains_contact_info with the pattern table of the source. -/
def contains_contact_info : Option String → Bool :=
  containsWith EMAIL_PATTERN PHONE_PATTERNS SOCIAL_PATTERNS

/-- detect_contact_info with the pattern table of the source. -/
def detect_contact_info : Option String → DetectionResult :=
  detectWith EMAIL_PATTERN PHONE_PATTERNS SOCIAL_PATTERNS

/-!
The match relation.  Matches rs pre mid rest states that the stack of
items rs can consume exactly the characters mid, at a position whose left
context is pre (nearest character first) and whose right context after mid
is rest.  It is the nondeterministic counterpart of matchStk: soundness
and completeness below connect the two.
-/

/-- Nondeterministic match relation of a stack of items over a zipper. -/
inductive Matches : List RE → List Char → List Char → List Char → Prop where
  | nil (pre rest : List Char) : Matches [] pre [] rest
  | eps {rs : List RE} {pre mid rest : List Char}
      (h : Matches rs pre mid rest) : Matches (RE.eps :: rs) pre mid rest
  | seqR {a b : RE} {rs : List RE} {pre mid rest : List Char}
      (h : Matches (a :: b :: rs) pre mid rest) : Matches (RE.seq a b :: rs) pre mid rest
  | altL {a b : RE} {rs : List RE} {pre mid rest : List Char}
      (h : Matches (a :: rs) pre mid rest) : Matches (RE.alt a b :: rs) pre mid rest
  | altR {a b : RE} {rs : List RE} {pre mid rest : List Char}
      (h : Matches (b :: rs) pre mid rest) : Matches (RE.alt a b :: rs) pre mid rest
  | bolR {rs : List RE} {mid rest : List Char}
      (h : Matches rs [] mid rest) : Matches (RE.bol :: rs) [] mid rest
  | wordBR {rs : List RE} {pre mid rest : List Char}
      (hb : (wOf pre.head? != wOf ((mid ++ rest).head?)) = true)
      (h : Matches rs pre mid rest) : Matches (RE.wordB :: rs) pre mid rest
  | clsR {p : Char → Bool} {lo : Nat} {hi : Option Nat} {rs : List RE} {pre rest : List Char}
      (taken mid' : List Char)
      (hlo : lo ≤ taken.length) (hhi : ∀ k, hi = some k → taken.length ≤ k)
      (hall : taken.all p = true)
      (h : Matches rs (taken.reverse ++ pre) mid' rest) :
      Matches (RE.cls p lo hi :: rs) pre (taken ++ mid') rest

/-- A findSome? hit comes from some list element. -/
theorem exists_of_findSome_eq_some {α β : Type} {l : List α} {g : α → Option β} {v : β}
    (h : l.findSome? g = some v) : ∃ x ∈ l, g x = some v := by
  induction l with
  | nil => simp [List.findSome?] at h
  | cons a l ih =>
    rw [List.findSome?] at h
    cases hg : g a with
    | some w => rw [hg] at h; exact ⟨a, List.mem_cons_self a l, hg.trans h⟩
    | none =>
      rw [hg] at h
      obtain ⟨x, hx, hgx⟩ := ih h
      exact ⟨x, List.mem_cons_of_mem a hx, hgx⟩

/-- findSome? succeeds as soon as one element succeeds. -/
theorem findSome_ne_none_of_mem {α β : Type} {l : List α} {g : α → Option β} {x : α}
    (hx : x ∈ l) (hgx : g x ≠ none) : l.findSome? g ≠ none := by
  induction l with
  | nil => exact absurd hx (List.not_mem_nil x)
  | cons a l ih =>
    rw [List.findSome?]
    cases hg : g a with
    | some w => simp
    | none =>
      rcases List.mem_cons.mp hx with hxa | hxl
      · subst hxa; exact absurd hg hgx
      · exact ih hxl

/-- Membership in the descending count list. -/
theorem mem_descFrom {k lo x : Nat} : x ∈ descFrom k lo ↔ lo ≤ x ∧ x ≤ lo + k := by
  induction k with
  | zero => simp [descFrom]; omega
  | succ k ih => simp [descFrom, ih]; omega

/-- Membership in the descending range of repetition counts. -/
theorem mem_descRange {hi lo x : Nat} : x ∈ descRange hi lo ↔ lo ≤ x ∧ x ≤ hi := by
  unfold descRange
  split
  · simp; omega
  · rw [mem_descFrom]; omega

/-- A prefix not longer than the matching run of takeWhile satisfies the
class everywhere. -/
theorem take_all_of_le_takeWhile {p : Char → Bool} {l : List Char} {n : Nat}
    (h : n ≤ (l.takeWhile p).length) : (l.take n).all p = true := by
  induction l generalizing n with
  | nil => simp
  | cons c l ih =>
    cases hc : p c with
    | false => simp [List.takeWhile_cons, hc] at h; subst h; simp
    | true =>
      simp only [List.takeWhile_cons, hc, if_true, List.length_cons] at h
      cases n with
      | zero => simp
      | succ n =>
        have h' : n ≤ (l.takeWhile p).length := by omega
        simp only [List.take_succ_cons, List.all_cons, hc, Bool.true_and]
        exact ih h'

/-- A class-respecting prefix is no longer than the takeWhile run. -/
theorem length_le_takeWhile_append {p : Char → Bool} {l₁ l₂ : List Char}
    (h : l₁.all p = true) : l₁.length ≤ ((l₁ ++ l₂).takeWhile p).length := by
  induction l₁ with
  | nil => simp
  | cons c l ih =>
    simp only [List.all_cons, Bool.and_eq_true] at h
    simp only [List.cons_append, List.takeWhile_cons, h.1, List.length_cons]
    exact Nat.succ_le_succ (ih h.2)

/-- Soundness of the matcher: a successful run of matchStk consuming n
characters yields a derivation of the match relation on the consumed
prefix. -/
theorem matchStk_sound : ∀ (f : Nat) (rs : List RE) (pre rest : List Char) (n : Nat),
    matchStk f rs pre rest = some n → Matches rs pre (rest.take n) (rest.drop n) := by
  intro f
  induction f with
  | zero => intro rs pre rest n h; simp [matchStk] at h
  | succ f ih =>
    intro rs pre rest n h
    cases rs with
    | nil =>
      simp only [matchStk, Option.some.injEq] at h
      subst h
      simpa using Matches.nil pre rest
    | cons r rs =>
      cases r with
      | eps =>
        simp only [matchStk] at h
        exact Matches.eps (ih _ _ _ _ h)
      | seq a b =>
        simp only [matchStk] at h
        exact Matches.seqR (ih _ _ _ _ h)
      | alt a b =>
        simp only [matchStk] at h
        cases hA : matchStk f (a :: rs) pre rest with
        | some m =>
          rw [hA] at h
          simp only [Option.some.injEq] at h
          subst h
          exact Matches.altL (ih _ _ _ _ hA)
        | none =>
          rw [hA] at h
          exact Matches.altR (ih _ _ _ _ h)
      | bol =>
        simp only [matchStk] at h
        split at h
        · next hpre =>
          have : pre = [] := List.isEmpty_iff.mp hpre
          subst this
          exact Matches.bolR (ih _ _ _ _ h)
        · exact absurd h (by simp)
      | wordB =>
        simp only [matchStk] at h
        split at h
        · next hb =>
          refine Matches.wordBR ?_ (ih _ _ _ _ h)
          rwa [List.take_append_drop]
        · exact absurd h (by simp)
      | cls p lo hi =>
        simp only [matchStk] at h
        obtain ⟨x, hx, hgx⟩ := exists_of_findSome_eq_some h
        cases hm : matchStk f rs ((rest.take x).reverse ++ pre) (rest.drop x) with
        | none => rw [hm] at hgx; simp at hgx
        | some m =>
          rw [hm] at hgx
          simp only [Option.map_some', Option.some.injEq] at hgx
          subst hgx
          obtain ⟨hxlo, hxhi⟩ := mem_descRange.mp hx
          have hxavail : x ≤ (rest.takeWhile p).length := by
            cases hi with
            | none => exact hxhi
            | some k => exact le_trans hxhi (by simp [natMin])
          have hrec := ih _ _ _ _ hm
          rw [List.take_add, ← List.drop_drop]
          refine Matches.clsR (rest.take x) ((rest.drop x).take m) ?_ ?_ ?_ ?_
          · have : x ≤ rest.length := le_trans hxavail (by
              simpa using (List.takeWhile_sublist p).length_le)
            simpa [List.length_take, Nat.min_eq_left this] using hxlo
          · intro k hk
            subst hk
            have : x ≤ min (rest.takeWhile p).length k := by simpa [natMin] using hxhi
            have hxk : x ≤ k := le_trans this (Nat.min_le_right _ _)
            have : x ≤ rest.length := le_trans hxavail (by
              simpa using (List.takeWhile_sublist p).length_le)
            simpa [List.length_take, Nat.min_eq_left this] using hxk
          · exact take_all_of_le_takeWhile hxavail
          · exact hrec

/-- Sizes of items are positive. -/
theorem reSize_pos (r : RE) : 0 < reSize r := by
  cases r <;> simp [reSize]

/-- Size of a stack with a head item. -/
theorem stackM_cons (r : RE) (rs : List RE) : stackM (r :: rs) = reSize r + stackM rs := by
  simp [stackM]

/-- Completeness of the matcher: whenever the relation admits a match, the
backtracking matcher with sufficient fuel does not fail. -/
theorem matchStk_complete {rs : List RE} {pre mid rest : List Char}
    (h : Matches rs pre mid rest) :
    ∀ f, stackM rs < f → matchStk f rs pre (mid ++ rest) ≠ none := by
  induction h with
  | nil pre rest =>
    intro f hf
    cases f with
    | zero => simp [stackM] at hf
    | succ f => simp [matchStk]
  | eps h ih =>
    intro f hf
    cases f with
    | zero => omega
    | succ f =>
      rw [stackM_cons, reSize] at hf
      simpa only [matchStk] using ih f (by omega)
  | seqR h ih =>
    intro f hf
    cases f with
    | zero => omega
    | succ f =>
      rename_i a b rs' pre' mid' rest'
      rw [stackM_cons, reSize] at hf
      have : stackM (a :: b :: rs') < f := by
        rw [stackM_cons, stackM_cons]
        omega
      simpa only [matchStk] using ih f this
  | altL h ih =>
    intro f hf
    cases f with
    | zero => omega
    | succ f =>
      rename_i a b rs' pre' mid' rest'
      rw [stackM_cons, reSize] at hf
      have hb := reSize_pos b
      have : stackM (a :: rs') < f := by rw [stackM_cons]; omega
      have := ih f this
      simp only [matchStk]
      cases hA : matchStk f (a :: rs') pre' (mid' ++ rest') with
      | some m => simp
      | none => exact absurd hA this
  | altR h ih =>
    intro f hf
    cases f with
    | zero => omega
    | succ f =>
      rename_i a b rs' pre' mid' rest'
      rw [stackM_cons, reSize] at hf
      have ha := reSize_pos a
      have : stackM (b :: rs') < f := by rw [stackM_cons]; omega
      have hB := ih f this
      simp only [matchStk]
      cases hA : matchStk f (a :: rs') pre' (mid' ++ rest') with
      | some m => simp
      | none => exact hB
  | bolR h ih =>
    intro f hf
    cases f with
    | zero => omega
    | succ f =>
      rw [stackM_cons, reSize] at hf
      simpa only [matchStk, List.isEmpty_nil, if_true] using ih f (by omega)
  | wordBR hb h ih =>
    intro f hf
    cases f with
    | zero => omega
    | succ f =>
      rw [stackM_cons, reSize] at hf
      simp only [matchStk, hb, if_true]
      exact ih f (by omega)
  | clsR taken mid' hlo hhi hall h ih =>
    intro f hf
    cases f with
    | zero => omega
    | succ f =>
      rename_i p lo hi rs' pre' rest'
      rw [stackM_cons, reSize] at hf
      simp only [matchStk]
      rw [List.append_assoc]
      have havail : taken.length ≤ ((taken ++ (mid' ++ rest')).takeWhile p).length :=
        length_le_takeWhile_append hall
      have hmn : taken.length ≤ natMin ((taken ++ (mid' ++ rest')).takeWhile p).length hi := by
        cases hi with
        | none => simpa [natMin] using havail
        | some k =>
          simp only [natMin]
          exact le_min havail (hhi k rfl)
      refine findSome_ne_none_of_mem (x := taken.length) (mem_descRange.mpr ⟨hlo, hmn⟩) ?_
      rw [List.take_left, List.drop_left]
      have := ih f (by omega)
      cases hm : matchStk f rs' (taken.reverse ++ pre') (mid' ++ rest') with
      | none => exact absurd hm this
      | some m => simp

/-- Items free of context assertions: no word boundary and no caret. -/
def ctxFreeRE : RE → Bool
  | .cls _ _ _ => true
  | .alt a b => ctxFreeRE a && ctxFreeRE b
  | .seq a b => ctxFreeRE a && ctxFreeRE b
  | .wordB => false
  | .bol => false
  | .eps => true

/-- A match of an assertion-free stack is independent of its context: the
same characters match in any other context, in particular alone. -/
theorem matches_ctxFree : ∀ {rs : List RE} {pre mid rest : List Char},
    Matches rs pre mid rest → rs.all ctxFreeRE = true →
    ∀ pre2 rest2, Matches rs pre2 mid rest2 := by
  intro rs pre mid rest h
  induction h with
  | nil pre rest => intro _ pre2 rest2; exact Matches.nil pre2 rest2
  | eps h ih =>
    intro hcf pre2 rest2
    simp only [List.all_cons, Bool.and_eq_true] at hcf
    exact Matches.eps (ih hcf.2 pre2 rest2)
  | seqR h ih =>
    intro hcf pre2 rest2
    simp only [List.all_cons, ctxFreeRE, Bool.and_eq_true] at hcf
    refine Matches.seqR (ih ?_ pre2 rest2)
    simp only [List.all_cons, Bool.and_eq_true]
    exact ⟨hcf.1.1, hcf.1.2, hcf.2⟩
  | altL h ih =>
    intro hcf pre2 rest2
    simp only [List.all_cons, ctxFreeRE, Bool.and_eq_true] at hcf
    refine Matches.altL (ih ?_ pre2 rest2)
    simp only [List.all_cons, Bool.and_eq_true]
    exact ⟨hcf.1.1, hcf.2⟩
  | altR h ih =>
    intro hcf pre2 rest2
    simp only [List.all_cons, ctxFreeRE, Bool.and_eq_true] at hcf
    refine Matches.altR (ih ?_ pre2 rest2)
    simp only [List.all_cons, Bool.and_eq_true]
    exact ⟨hcf.1.2, hcf.2⟩
  | bolR h ih =>
    intro hcf
    simp [ctxFreeRE] at hcf
  | wordBR hb h ih =>
    intro hcf
    simp [ctxFreeRE] at hcf
  | clsR taken mid' hlo hhi hall h ih =>
    intro hcf pre2 rest2
    simp only [List.all_cons, Bool.and_eq_true] at hcf
    exact Matches.clsR taken mid' hlo hhi hall (ih hcf.2 (taken.reverse ++ pre2) rest2)

/-- The search scan preserves the underlying text and certifies its match
at the returned position. -/
theorem searchZ_spec (p : Pat) : ∀ (rest pre pre1 : List Char) (n : Nat) (rest1 : List Char),
    searchZ p pre rest = some (pre1, n, rest1) →
    pre1.reverse ++ rest1 = pre.reverse ++ rest ∧
    matchStk (stackM p + 1) p pre1 rest1 = some n := by
  intro rest
  induction rest with
  | nil =>
    intro pre pre1 n rest1 h
    simp only [searchZ] at h
    cases hm : matchStk (stackM p + 1) p pre [] with
    | none => rw [hm] at h; simp at h
    | some m =>
      rw [hm] at h
      simp only [Option.map_some', Option.some.injEq, Prod.mk.injEq] at h
      obtain ⟨h1, h2, h3⟩ := h
      subst h1; subst h2; subst h3
      exact ⟨rfl, hm⟩
  | cons c rest ih =>
    intro pre pre1 n rest1 h
    simp only [searchZ] at h
    cases hm : matchStk (stackM p + 1) p pre (c :: rest) with
    | some m =>
      rw [hm] at h
      simp only [Option.some.injEq, Prod.mk.injEq] at h
      obtain ⟨h1, h2, h3⟩ := h
      subst h1; subst h2; subst h3
      exact ⟨rfl, hm⟩
    | none =>
      rw [hm] at h
      obtain ⟨hc, hs⟩ := ih (c :: pre) pre1 n rest1 h
      refine ⟨?_, hs⟩
      rw [hc]
      simp

/-- Every match reported by the scan is a contiguous substring of the
underlying text and admits a derivation of the match relation. -/
theorem findAux_spec (p : Pat) : ∀ (f : Nat) (pre rest m : List Char),
    m ∈ findAux p f pre rest →
    (∃ u v, u ++ m ++ v = pre.reverse ++ rest) ∧
    ∃ pre2 rest2, Matches p pre2 m rest2 := by
  intro f
  induction f with
  | zero => intro pre rest m h; simp [findAux] at h
  | succ f ih =>
    intro pre rest m h
    rw [findAux] at h
    cases hs : searchZ p pre rest with
    | none => rw [hs] at h; simp at h
    | some res =>
      obtain ⟨pre1, n, rest1⟩ := res
      rw [hs] at h
      obtain ⟨hctx, hmatch⟩ := searchZ_spec p rest pre pre1 n rest1 hs
      have hsound := matchStk_sound _ _ _ _ _ hmatch
      by_cases hn : n = 0
      · subst hn
        simp only [if_true] at h
        rcases List.mem_cons.mp h with hm0 | hmrec
        · subst hm0
          refine ⟨⟨[], pre.reverse ++ rest, by simp⟩, pre1, rest1, ?_⟩
          simpa using hsound
        · cases rest1 with
          | nil => simp at hmrec
          | cons c rest2 =>
            obtain ⟨⟨u, v, huv⟩, hrel⟩ := ih (c :: pre1) rest2 m hmrec
            refine ⟨⟨u, v, ?_⟩, hrel⟩
            rw [huv, ← hctx]
            simp
      · simp only [if_neg hn] at h
        rcases List.mem_cons.mp h with hm0 | hmrec
        · subst hm0
          refine ⟨⟨pre1.reverse, rest1.drop n, ?_⟩, pre1, rest1.drop n, hsound⟩
          rw [← hctx, List.append_assoc, List.take_append_drop]
        · obtain ⟨⟨u, v, huv⟩, hrel⟩ := ih ((rest1.take n).reverse ++ pre1) (rest1.drop n) m hmrec
          refine ⟨⟨u, v, ?_⟩, hrel⟩
          rw [huv, ← hctx]
          simp [List.append_assoc]

/-- Every match of findall is a contiguous substring of the text and
admits a derivation of the match relation. -/
theorem findall_spec {p : Pat} {l m : List Char} (h : m ∈ findall p l) :
    (∃ u v, u ++ m ++ v = l) ∧ ∃ pre2 rest2, Matches p pre2 m rest2 := by
  have := findAux_spec p (l.length + 1) [] l m h
  simpa using this

/-- findall is empty exactly when the search fails. -/
theorem findall_isEmpty (p : Pat) (l : List Char) :
    (findall p l).isEmpty = !(searchZ p [] l).isSome := by
  unfold findall
  rw [findAux]
  cases hs : searchZ p [] l with
  | none => simp
  | some res =>
    obtain ⟨pre1, n, rest1⟩ := res
    by_cases hn : n = 0 <;> simp [hn]

/-- The boolean search agrees with non-emptiness of findall. -/
theorem searchB_eq (p : Pat) (t : String) : searchB p t = !(findallStr p t).isEmpty := by
  have hmap : (findallStr p t).isEmpty = (findall p t.data).isEmpty := by
    unfold findallStr
    cases findall p t.data <;> simp
  rw [hmap, findall_isEmpty, Bool.not_not]
  rfl

/-- Membership in the concatenation of category matches. -/
theorem mem_concatMap {f : Pat → List String} {ps : List Pat} {m : String} :
    m ∈ concatMap f ps ↔ ∃ p ∈ ps, m ∈ f p := by
  induction ps with
  | nil => simp [concatMap]
  | cons p ps ih =>
    simp only [concatMap, List.mem_append, ih, List.mem_cons]
    constructor
    · rintro (h | ⟨q, hq, hm⟩)
      · exact ⟨p, Or.inl rfl, h⟩
      · exact ⟨q, Or.inr hq, hm⟩
    · rintro ⟨q, hq | hq, hm⟩
      · subst hq; exact Or.inl hm
      · exact Or.inr ⟨q, hq, hm⟩

/-- The concatenation of category matches is empty exactly when every
pattern found nothing. -/
theorem concatMap_eq_nil {f : Pat → List String} {ps : List Pat} :
    concatMap f ps = [] ↔ ∀ p ∈ ps, f p = [] := by
  induction ps with
  | nil => simp [concatMap]
  | cons p ps ih => simp [concatMap, ih]

/-- A category match list is empty exactly when no pattern of the category
hits. -/
theorem catFind_isEmpty (ps : List Pat) (t : String) :
    (catFind ps t).isEmpty = !(ps.any fun p => searchB p t) := by
  cases hany : ps.any fun p => searchB p t
  · simp only [Bool.not_false, List.isEmpty_iff]
    unfold catFind
    rw [List.dedup_eq_nil, concatMap_eq_nil]
    intro p hp
    have hfalse := List.any_eq_false.mp hany p hp
    have := searchB_eq p t
    rw [this] at hfalse
    rcases hfa : findallStr p t with _ | ⟨a, l⟩
    · rfl
    · rw [hfa] at hfalse; simp at hfalse
  · simp only [Bool.not_true]
    obtain ⟨p, hp, hsb⟩ := List.any_eq_true.mp hany
    rw [searchB_eq] at hsb
    have hne : findallStr p t ≠ [] := by
      intro hnil
      rw [hnil] at hsb
      simp at hsb
    have hmem : catFind ps t ≠ [] := by
      intro hnil
      unfold catFind at hnil
      rw [List.dedup_eq_nil, concatMap_eq_nil] at hnil
      exact hne (hnil p hp)
    rcases hcf : catFind ps t with _ | ⟨a, l⟩
    · exact absurd hcf hmem
    · rfl

/-- Truthy text is a non-empty string. -/
theorem pyFalsy_some_eq_false {t : String} (ht : t ≠ "") : pyFalsy (some t) = false := by
  simp only [pyFalsy]
  rcases hie : t.isEmpty with _ | _
  · rfl
  · exact absurd ((String.isEmpty_iff t).mp hie) ht

/-- C1: for every input, the boolean check contains_contact_info agrees
with the has_contact_info flag of detect_contact_info. -/
theorem quick_detailed_agree (text : Option String) :
    contains_contact_info text = (detect_contact_info text).has_contact_info := by
  unfold contains_contact_info detect_contact_info containsWith detectWith
  cases hft : pyFalsy text with
  | true => simp [hft]
  | false =>
    simp only [hft, Bool.false_eq_true, if_false]
    have h1 := searchB_eq EMAIL_PATTERN (text.getD "")
    have h2 := catFind_isEmpty PHONE_PATTERNS (text.getD "")
    have h3 := catFind_isEmpty SOCIAL_PATTERNS (text.getD "")
    cases hE : searchB EMAIL_PATTERN (text.getD "") <;>
      cases hP : (PHONE_PATTERNS.any fun p => searchB p (text.getD "")) <;>
      cases hS : (SOCIAL_PATTERNS.any fun p => searchB p (text.getD "")) <;>
      rw [hE] at h1 <;> rw [hP] at h2 <;> rw [hS] at h3 <;>
      simp_all

/-- C3: the has_contact_info flag of the detailed result is true exactly
when some category of the details dict has a non-empty match list. -/
theorem has_iff_some_nonempty (text : Option String) :
    (detect_contact_info text).has_contact_info = true ↔
      ∃ kv ∈ (detect_contact_info text).details, kv.2 ≠ [] := by
  unfold detect_contact_info detectWith
  cases hft : pyFalsy text with
  | true => simp [hft]
  | false =>
    simp only [hft, Bool.false_eq_true, if_false]
    simp [List.isEmpty_iff]
    tauto

/-- C4: for absent and for empty input, and for every pattern table, the
boolean check returns false and the detailed check returns the negative
result with an empty details dict. -/
theorem empty_input_result (e : Pat) (ps ss : List Pat) :
    containsWith e ps ss none = false ∧ containsWith e ps ss (some "") = false ∧
    detectWith e ps ss none = ⟨false, []⟩ ∧ detectWith e ps ss (some "") = ⟨false, []⟩ := by
  have h : pyFalsy (some "") = true := by decide
  exact ⟨rfl, by simp [containsWith, h], rfl, by simp [detectWith, h]⟩

/-- C5: on non-empty input the boolean check is the short-circuit
disjunction of the email search, the phone searches in list order and the
social searches in list order; when the email pattern hits, the result is
true whatever the phone and social tables hold, and when it misses, the
result is determined by the phone table and then the social table. -/
theorem quick_order (t : String) (ht : t ≠ "") (ps ss : List Pat) :
    (contains_contact_info (some t) =
      (searchB EMAIL_PATTERN t || (PHONE_PATTERNS.any fun p => searchB p t) ||
        (SOCIAL_PATTERNS.any fun p => searchB p t))) ∧
    (searchB EMAIL_PATTERN t = true → containsWith EMAIL_PATTERN ps ss (some t) = true) ∧
    (searchB EMAIL_PATTERN t = false →
      containsWith EMAIL_PATTERN PHONE_PATTERNS ss (some t) =
        ((PHONE_PATTERNS.any fun p => searchB p t) || (ss.any fun p => searchB p t))) := by
  have hft : pyFalsy (some t) = false := pyFalsy_some_eq_false ht
  have if3 : ∀ a b c : Bool,
      (if a then true else if b then true else if c then true else false) = (a || b || c) := by
    intro a b c
    cases a <;> cases b <;> cases c <;> simp
  refine ⟨?_, ?_, ?_⟩
  · unfold contains_contact_info containsWith
    simp only [hft, Bool.false_eq_true, if_false, Option.getD_some]
    exact if3 _ _ _
  · intro hE
    unfold containsWith
    simp [hft, hE]
  · intro hE
    unfold containsWith
    simp only [hft, Bool.false_eq_true, if_false, Option.getD_some, hE]
    have if2 : ∀ b c : Bool, (if b then true else if c then true else false) = (b || c) := by
      intro b c
      cases b <;> cases c <;> simp
    exact if2 _ _

/-- C9: the details dict of the detailed check has exactly the keys
emails, phones and social in this order for truthy input, and is empty
exactly for absent or empty input. -/
theorem details_keys (text : Option String) :
    (detect_contact_info text).details.map Prod.fst =
      if text = none ∨ text = some "" then [] else ["emails", "phones", "social"] := by
  unfold detect_contact_info detectWith
  cases text with
  | none => simp [pyFalsy]
  | some s =>
    by_cases hs : s = ""
    · subst hs
      have h : pyFalsy (some "") = true := by decide
      simp [h]
    · have h : pyFalsy (some s) = false := pyFalsy_some_eq_false hs
      simp [h, hs]

/-- An empty stack consumes nothing. -/
theorem invNil {pre mid rest : List Char} (h : Matches [] pre mid rest) : mid = [] := by
  cases h
  rfl

/-- Inversion of a class item at the head of the stack. -/
theorem invCls {p : Char → Bool} {lo : Nat} {hi : Option Nat} {rs : List RE}
    {pre mid rest : List Char} (h : Matches (RE.cls p lo hi :: rs) pre mid rest) :
    ∃ taken mid2, mid = taken ++ mid2 ∧ lo ≤ taken.length ∧
      (∀ k, hi = some k → taken.length ≤ k) ∧ taken.all p = true ∧
      Matches rs (taken.reverse ++ pre) mid2 rest := by
  cases h with
  | clsR taken mid2 hlo hhi hall h => exact ⟨taken, mid2, rfl, hlo, hhi, hall, h⟩

/-- Inversion of a word boundary at the head of the stack. -/
theorem invWordB {rs : List RE} {pre mid rest : List Char}
    (h : Matches (RE.wordB :: rs) pre mid rest) :
    (wOf pre.head? != wOf ((mid ++ rest).head?)) = true ∧ Matches rs pre mid rest := by
  cases h with
  | wordBR hb h => exact ⟨hb, h⟩

/-- Inversion of an alternation at the head of the stack. -/
theorem invAlt {a b : RE} {rs : List RE} {pre mid rest : List Char}
    (h : Matches (RE.alt a b :: rs) pre mid rest) :
    Matches (a :: rs) pre mid rest ∨ Matches (b :: rs) pre mid rest := by
  cases h with
  | altL h => exact Or.inl h
  | altR h => exact Or.inr h

/-- Inversion of the start-of-text assertion at the head of the stack. -/
theorem invBol {rs : List RE} {pre mid rest : List Char}
    (h : Matches (RE.bol :: rs) pre mid rest) :
    pre = [] ∧ Matches rs pre mid rest := by
  cases h with
  | bolR h => exact ⟨rfl, h⟩

/-- Inversion of a single mandatory character of a class. -/
theorem invOne {p : Char → Bool} {rs : List RE} {pre mid rest : List Char}
    (h : Matches (RE.cls p 1 (some 1) :: rs) pre mid rest) :
    ∃ c mid2, mid = c :: mid2 ∧ p c = true ∧ Matches rs (c :: pre) mid2 rest := by
  obtain ⟨taken, mid2, hmid, hlo, hhi, hall, hrec⟩ := invCls h
  have hlen : taken.length = 1 := le_antisymm (hhi 1 rfl) hlo
  obtain ⟨c, hc⟩ := List.length_eq_one.mp hlen
  subst hc
  simp only [List.all_cons, List.all_nil, Bool.and_true] at hall
  exact ⟨c, mid2, by simpa using hmid, hall, by simpa using hrec⟩

/-- Inversion of an exact repetition count. -/
theorem invRepN {p : Char → Bool} {k : Nat} {rs : List RE} {pre mid rest : List Char}
    (h : Matches (RE.cls p k (some k) :: rs) pre mid rest) :
    ∃ taken mid2, mid = taken ++ mid2 ∧ taken.length = k ∧ taken.all p = true ∧
      Matches rs (taken.reverse ++ pre) mid2 rest := by
  obtain ⟨taken, mid2, hmid, hlo, hhi, hall, hrec⟩ := invCls h
  exact ⟨taken, mid2, hmid, le_antisymm (hhi k rfl) hlo, hall, hrec⟩

/-- Builder for a single mandatory character of a class. -/
theorem one_cls {p : Char → Bool} {rs : List RE} {pre mid rest : List Char} {c : Char}
    (hc : p c = true) (h : Matches rs (c :: pre) mid rest) :
    Matches (RE.cls p 1 (some 1) :: rs) pre (c :: mid) rest := by
  have hb := @Matches.clsR p 1 (some 1) rs pre rest [c] mid (by simp)
    (fun k hk => by injection hk with hk; simp; omega)
    (by simp [hc]) (by simpa using h)
  simpa using hb

/-- Builder for an exact repetition count. -/
theorem repN_build {p : Char → Bool} {k : Nat} {rs : List RE} {pre mid2 rest : List Char}
    (taken : List Char) (hlen : taken.length = k) (hall : taken.all p = true)
    (h : Matches rs (taken.reverse ++ pre) mid2 rest) :
    Matches (RE.cls p k (some k) :: rs) pre (taken ++ mid2) rest :=
  Matches.clsR taken mid2 (by omega) (fun j hj => by injection hj with hj; omega) hall h

/-- Digits are word characters. -/
theorem wchar_of_digc {c : Char} (h : digc c = true) : wchar c = true := by
  simp only [digc] at h
  simp [wchar, Char.isAlphanum, h]

/-- Word-class characters are word characters. -/
theorem wchar_of_wchar {c : Char} (h : wchar c = true) : wchar c = true := h

/-- Handle-initial characters are word characters. -/
theorem wchar_of_alphaUc {c : Char} (h : alphaUc c = true) : wchar c = true := by
  simp only [alphaUc, Bool.or_eq_true, beq_iff_eq] at h
  rcases h with h | h
  · simp [wchar, Char.isAlphanum, h]
  · subst h
    decide

/-- The opening parenthesis is not a word character. -/
theorem not_wchar_of_lparen {c : Char} (h : chEq '(' c = true) : wchar c = false := by
  simp only [chEq, beq_iff_eq] at h
  subst h
  decide

/-- Head of a reversed all-class run followed by anything, when the run is
non-empty and its class is made of word characters. -/
theorem wOf_last_word {p : Char → Bool} {l : List Char} (x : List Char) (hne : l ≠ [])
    (hall : l.all p = true) (himp : ∀ c, p c = true → wchar c = true) :
    wOf ((l.reverse ++ x).head?) = true := by
  have hne' : l.reverse ≠ [] := by simpa using hne
  obtain ⟨c, cs, hc⟩ := List.exists_cons_of_ne_nil hne'
  have hcmem : c ∈ l := by
    have hmem : c ∈ l.reverse := by
      rw [hc]
      exact List.mem_cons_self _ _
    simpa using hmem
  have hp := List.all_eq_true.mp hall c hcmem
  rw [hc]
  simp [wOf, himp c hp]

/-- Head of a reversed all-class run at the start of the text, when the
class holds no word character: the position is not preceded by a word
character. -/
theorem wOf_rev_nonword {p : Char → Bool} {l : List Char}
    (hall : l.all p = true) (himp : ∀ c, p c = true → wchar c = false) :
    wOf ((l.reverse ++ ([] : List Char)).head?) = false := by
  cases hr : l.reverse with
  | nil => simp [hr, wOf]
  | cons c cs =>
    have hcmem : c ∈ l := by
      have hmem : c ∈ l.reverse := by
        rw [hr]
        exact List.mem_cons_self _ _
      simpa using hmem
    have hp := List.all_eq_true.mp hall c hcmem
    simp [wOf, himp c hp]

/-- Head of a reversed possibly-empty word run in front of a word
character: the position is preceded by a word character. -/
theorem wOf_rev_cons_word {p : Char → Bool} {l : List Char} {c : Char} (x : List Char)
    (hall : l.all p = true) (himp : ∀ d, p d = true → wchar d = true) (hc : wchar c = true) :
    wOf ((l.reverse ++ (c :: x)).head?) = true := by
  cases hr : l.reverse with
  | nil => simp [hr, wOf, hc]
  | cons a as =>
    have hamem : a ∈ l := by
      have hmem : a ∈ l.reverse := by
        rw [hr]
        exact List.mem_cons_self _ _
      simpa using hmem
    have hp := List.all_eq_true.mp hall a hamem
    simp [wOf, himp a hp]

/-- A PHONE2 match re-run alone still matches: the leading boundary is
satisfied because the match starts with the digit 0, the trailing boundary
because it ends with a digit. -/
theorem rematch_PHONE2 {pre mid rest : List Char} (h : Matches PHONE2 pre mid rest) :
    Matches PHONE2 [] mid [] := by
  simp only [PHONE2, litc, repN, rep01] at h ⊢
  obtain ⟨-, h⟩ := invWordB h
  obtain ⟨c0, mid1, hm1, hc0, h⟩ := invOne h
  obtain ⟨c9, mid2, hm2, hc9, h⟩ := invOne h
  obtain ⟨d2, mid3, hm3, hd2len, hd2, h⟩ := invRepN h
  obtain ⟨s1, mid4, hm4, hs1lo, hs1hi, hs1all, h⟩ := invCls h
  obtain ⟨d3, mid5, hm5, hd3len, hd3, h⟩ := invRepN h
  obtain ⟨s2, mid6, hm6, hs2lo, hs2hi, hs2all, h⟩ := invCls h
  obtain ⟨d4, mid7, hm7, hd4len, hd4, h⟩ := invRepN h
  obtain ⟨-, h⟩ := invWordB h
  have hm8 := invNil h
  subst hm8
  subst hm7
  subst hm6
  subst hm5
  subst hm4
  subst hm3
  subst hm2
  subst hm1
  simp only [chEq, beq_iff_eq] at hc0 hc9
  subst hc0
  subst hc9
  have hd4ne : d4 ≠ [] := by
    intro hnil
    rw [hnil] at hd4len
    simp at hd4len
  refine Matches.wordBR (by rfl) ?_
  refine one_cls (by decide) ?_
  refine one_cls (by decide) ?_
  refine repN_build d2 hd2len hd2 ?_
  refine Matches.clsR s1 _ (Nat.zero_le _) hs1hi hs1all ?_
  refine repN_build d3 hd3len hd3 ?_
  refine Matches.clsR s2 _ (Nat.zero_le _) hs2hi hs2all ?_
  refine repN_build d4 hd4len hd4 ?_
  refine Matches.wordBR ?_ (Matches.nil _ _)
  rw [wOf_last_word _ hd4ne hd4 (fun c hc => wchar_of_digc hc)]
  decide

/-- A PHONE5 match re-run alone still matches: the interior boundary sits
between the optional opening parenthesis, which is not a word character,
and the digit 0, and the trailing boundary follows a digit. -/
theorem rematch_PHONE5 {pre mid rest : List Char} (h : Matches PHONE5 pre mid rest) :
    Matches PHONE5 [] mid [] := by
  simp only [PHONE5, litc, repN, rep01] at h ⊢
  obtain ⟨op, mid1, hm1, hoplo, hophi, hopall, h⟩ := invCls h
  obtain ⟨-, h⟩ := invWordB h
  obtain ⟨c0, mid2, hm2, hc0, h⟩ := invOne h
  obtain ⟨c2, mid3, hm3, hc2, h⟩ := invOne h
  obtain ⟨cp, mid4, hm4, hcplo, hcphi, hcpall, h⟩ := invCls h
  obtain ⟨s1, mid5, hm5, hs1lo, hs1hi, hs1all, h⟩ := invCls h
  obtain ⟨d4a, mid6, hm6, hd4alen, hd4a, h⟩ := invRepN h
  obtain ⟨s2, mid7, hm7, hs2lo, hs2hi, hs2all, h⟩ := invCls h
  obtain ⟨d4b, mid8, hm8, hd4blen, hd4b, h⟩ := invRepN h
  obtain ⟨-, h⟩ := invWordB h
  have hm9 := invNil h
  subst hm9
  subst hm8
  subst hm7
  subst hm6
  subst hm5
  subst hm4
  subst hm3
  subst hm2
  subst hm1
  simp only [chEq, beq_iff_eq] at hc0 hc2
  subst hc0
  subst hc2
  have hd4bne : d4b ≠ [] := by
    intro hnil
    rw [hnil] at hd4blen
    simp at hd4blen
  refine Matches.clsR op _ (Nat.zero_le _) hophi hopall ?_
  refine Matches.wordBR ?_ ?_
  · rw [wOf_rev_nonword hopall fun c hc => not_wchar_of_lparen hc]
    rfl
  refine one_cls (by decide) ?_
  refine one_cls (by decide) ?_
  refine Matches.clsR cp _ (Nat.zero_le _) hcphi hcpall ?_
  refine Matches.clsR s1 _ (Nat.zero_le _) hs1hi hs1all ?_
  refine repN_build d4a hd4alen hd4a ?_
  refine Matches.clsR s2 _ (Nat.zero_le _) hs2hi hs2all ?_
  refine repN_build d4b hd4blen hd4b ?_
  refine Matches.wordBR ?_ (Matches.nil _ _)
  rw [wOf_last_word _ hd4bne hd4b fun c hc => wchar_of_digc hc]
  decide

/-- A PHONE6 match re-run alone still matches, by the argument of PHONE5. -/
theorem rematch_PHONE6 {pre mid rest : List Char} (h : Matches PHONE6 pre mid rest) :
    Matches PHONE6 [] mid [] := by
  simp only [PHONE6, litc, repN, rep01] at h ⊢
  obtain ⟨op, mid1, hm1, hoplo, hophi, hopall, h⟩ := invCls h
  obtain ⟨-, h⟩ := invWordB h
  obtain ⟨c0, mid2, hm2, hc0, h⟩ := invOne h
  obtain ⟨da, mid3, hm3, hdalen, hda, h⟩ := invRepN h
  obtain ⟨cp, mid4, hm4, hcplo, hcphi, hcpall, h⟩ := invCls h
  obtain ⟨s1, mid5, hm5, hs1lo, hs1hi, hs1all, h⟩ := invCls h
  obtain ⟨d3s, mid6, hm6, hd3len, hd3, h⟩ := invRepN h
  obtain ⟨s2, mid7, hm7, hs2lo, hs2hi, hs2all, h⟩ := invCls h
  obtain ⟨d4s, mid8, hm8, hd4len, hd4, h⟩ := invRepN h
  obtain ⟨-, h⟩ := invWordB h
  have hm9 := invNil h
  subst hm9
  subst hm8
  subst hm7
  subst hm6
  subst hm5
  subst hm4
  subst hm3
  subst hm2
  subst hm1
  simp only [chEq, beq_iff_eq] at hc0
  subst hc0
  have hd4ne : d4s ≠ [] := by
    intro hnil
    rw [hnil] at hd4len
    simp at hd4len
  refine Matches.clsR op _ (Nat.zero_le _) hophi hopall ?_
  refine Matches.wordBR ?_ ?_
  · rw [wOf_rev_nonword hopall fun c hc => not_wchar_of_lparen hc]
    rfl
  refine one_cls (by decide) ?_
  refine repN_build da hdalen hda ?_
  refine Matches.clsR cp _ (Nat.zero_le _) hcphi hcpall ?_
  refine Matches.clsR s1 _ (Nat.zero_le _) hs1hi hs1all ?_
  refine repN_build d3s hd3len hd3 ?_
  refine Matches.clsR s2 _ (Nat.zero_le _) hs2hi hs2all ?_
  refine repN_build d4s hd4len hd4 ?_
  refine Matches.wordBR ?_ (Matches.nil _ _)
  rw [wOf_last_word _ hd4ne hd4 fun c hc => wchar_of_digc hc]
  decide

/-- A PHONE7 match re-run alone still matches, by the argument of PHONE2. -/
theorem rematch_PHONE7 {pre mid rest : List Char} (h : Matches PHONE7 pre mid rest) :
    Matches PHONE7 [] mid [] := by
  simp only [PHONE7, litc, repN] at h ⊢
  obtain ⟨-, h⟩ := invWordB h
  obtain ⟨c0, mid1, hm1, hc0, h⟩ := invOne h
  obtain ⟨c9, mid2, hm2, hc9, h⟩ := invOne h
  obtain ⟨d9, mid3, hm3, hd9len, hd9, h⟩ := invRepN h
  obtain ⟨-, h⟩ := invWordB h
  have hm4 := invNil h
  subst hm4
  subst hm3
  subst hm2
  subst hm1
  simp only [chEq, beq_iff_eq] at hc0 hc9
  subst hc0
  subst hc9
  have hd9ne : d9 ≠ [] := by
    intro hnil
    rw [hnil] at hd9len
    simp at hd9len
  refine Matches.wordBR (by rfl) ?_
  refine one_cls (by decide) ?_
  refine one_cls (by decide) ?_
  refine repN_build d9 hd9len hd9 ?_
  refine Matches.wordBR ?_ (Matches.nil _ _)
  rw [wOf_last_word _ hd9ne hd9 fun c hc => wchar_of_digc hc]
  decide

/-- A PHONE8 match re-run alone still matches: it is a non-empty run of
digits, so both boundaries are satisfied at the ends of the text. -/
theorem rematch_PHONE8 {pre mid rest : List Char} (h : Matches PHONE8 pre mid rest) :
    Matches PHONE8 [] mid [] := by
  simp only [PHONE8] at h ⊢
  obtain ⟨-, h⟩ := invWordB h
  obtain ⟨d, mid1, hm1, hdlo, hdhi, hdall, h⟩ := invCls h
  obtain ⟨-, h⟩ := invWordB h
  have hm2 := invNil h
  subst hm2
  subst hm1
  have hdne : d ≠ [] := by
    intro hnil
    rw [hnil] at hdlo
    simp at hdlo
  obtain ⟨c, ds, hc⟩ := List.exists_cons_of_ne_nil hdne
  subst hc
  have hcd : digc c = true := by
    have := List.all_eq_true.mp hdall c (List.mem_cons_self _ _)
    exact this
  refine Matches.wordBR ?_ ?_
  · have hcw := wchar_of_digc hcd
    simp [wOf, hcw]
  refine Matches.clsR (c :: ds) _ hdlo hdhi hdall ?_
  refine Matches.wordBR ?_ (Matches.nil _ _)
  rw [wOf_last_word _ hdne hdall fun e he => wchar_of_digc he]
  decide

/-- A SOCIAL1 match re-run alone still matches: a match beginning at the
caret alternative begins with the at sign at position zero again, a match
beginning with whitespace or an opening parenthesis carries that character
with it, and the trailing boundary follows a handle character. -/
theorem rematch_SOCIAL1 {pre mid rest : List Char} (h : Matches SOCIAL1 pre mid rest) :
    Matches SOCIAL1 [] mid [] := by
  simp only [SOCIAL1, litc] at h ⊢
  rcases invAlt h with h | h
  · obtain ⟨hpre, h⟩ := invBol h
    obtain ⟨ca, mid1, hm1, hca, h⟩ := invOne h
    obtain ⟨c1, mid2, hm2, hc1, h⟩ := invOne h
    obtain ⟨w, mid3, hm3, hwlo, hwhi, hwall, h⟩ := invCls h
    obtain ⟨-, h⟩ := invWordB h
    have hm4 := invNil h
    subst hm4
    subst hm3
    subst hm2
    subst hm1
    simp only [chEq, beq_iff_eq] at hca
    subst hca
    refine Matches.altL (Matches.bolR ?_)
    refine one_cls (by decide) ?_
    refine one_cls hc1 ?_
    refine Matches.clsR w _ (Nat.zero_le _) hwhi hwall ?_
    refine Matches.wordBR ?_ (Matches.nil _ _)
    rw [wOf_rev_cons_word _ hwall (fun d hd => hd) (wchar_of_alphaUc hc1)]
    decide
  · obtain ⟨sp, mid1, hm1, hsp, h⟩ := invOne h
    obtain ⟨ca, mid2, hm2, hca, h⟩ := invOne h
    obtain ⟨c1, mid3, hm3, hc1, h⟩ := invOne h
    obtain ⟨w, mid4, hm4, hwlo, hwhi, hwall, h⟩ := invCls h
    obtain ⟨-, h⟩ := invWordB h
    have hm5 := invNil h
    subst hm5
    subst hm4
    subst hm3
    subst hm2
    subst hm1
    simp only [chEq, beq_iff_eq] at hca
    subst hca
    refine Matches.altR ?_
    refine one_cls hsp ?_
    refine one_cls (by decide) ?_
    refine one_cls hc1 ?_
    refine Matches.clsR w _ (Nat.zero_le _) hwhi hwall ?_
    refine Matches.wordBR ?_ (Matches.nil _ _)
    rw [wOf_rev_cons_word _ hwall (fun d hd => hd) (wchar_of_alphaUc hc1)]
    decide

/-- Re-running a reported match of a pattern that re-matches in the empty
context succeeds: search finds a match of the pattern in the match string
itself. -/
theorem rematch_search {P : Pat}
    (hre : ∀ pre mid rest : List Char, Matches P pre mid rest → Matches P [] mid [])
    {l m : List Char} (hm : m ∈ findall P l) : (searchZ P [] m).isSome = true := by
  obtain ⟨-, pre2, rest2, hrel⟩ := findall_spec hm
  have h0 : Matches P [] m [] := hre _ _ _ hrel
  have hns : matchStk (stackM P + 1) P [] (m ++ []) ≠ none :=
    matchStk_complete h0 (stackM P + 1) (Nat.lt_succ_self _)
  rw [List.append_nil] at hns
  cases m with
  | nil =>
    simp only [searchZ]
    cases hmk : matchStk (stackM P + 1) P [] [] with
    | none => exact absurd hmk hns
    | some n => simp
  | cons c ms =>
    simp only [searchZ]
    cases hmk : matchStk (stackM P + 1) P [] (c :: ms) with
    | none => exact absurd hmk hns
    | some n => simp

/-- Every phone pattern re-matches its own matches in the empty context. -/
theorem rematch_phone : ∀ p ∈ PHONE_PATTERNS, ∀ pre mid rest : List Char,
    Matches p pre mid rest → Matches p [] mid [] := by
  intro p hp
  simp only [PHONE_PATTERNS, List.mem_cons, List.not_mem_nil, or_false] at hp
  rcases hp with rfl | rfl | rfl | rfl | rfl | rfl | rfl | rfl
  · exact fun pre mid rest h => matches_ctxFree h (by decide) [] []
  · exact fun pre mid rest h => rematch_PHONE2 h
  · exact fun pre mid rest h => matches_ctxFree h (by decide) [] []
  · exact fun pre mid rest h => matches_ctxFree h (by decide) [] []
  · exact fun pre mid rest h => rematch_PHONE5 h
  · exact fun pre mid rest h => rematch_PHONE6 h
  · exact fun pre mid rest h => rematch_PHONE7 h
  · exact fun pre mid rest h => rematch_PHONE8 h

/-- Every social pattern re-matches its own matches in the empty context. -/
theorem rematch_social : ∀ p ∈ SOCIAL_PATTERNS, ∀ pre mid rest : List Char,
    Matches p pre mid rest → Matches p [] mid [] := by
  intro p hp
  simp only [SOCIAL_PATTERNS, List.mem_cons, List.not_mem_nil, or_false] at hp
  rcases hp with rfl | rfl | rfl | rfl | rfl | rfl | rfl | rfl
  · exact fun pre mid rest h => rematch_SOCIAL1 h
  · exact fun pre mid rest h => matches_ctxFree h (by decide) [] []
  · exact fun pre mid rest h => matches_ctxFree h (by decide) [] []
  · exact fun pre mid rest h => matches_ctxFree h (by decide) [] []
  · exact fun pre mid rest h => matches_ctxFree h (by decide) [] []
  · exact fun pre mid rest h => matches_ctxFree h (by decide) [] []
  · exact fun pre mid rest h => matches_ctxFree h (by decide) [] []
  · exact fun pre mid rest h => matches_ctxFree h (by decide) [] []

/-- C6: every substring reported under a category of the detailed result,
taken alone as a fresh input, is matched by at least one pattern of that
category. -/
theorem reported_rematches (t : String) (kv : String × List String)
    (hkv : kv ∈ (detect_contact_info (some t)).details) (m : String) (hm : m ∈ kv.2) :
    (kv.1 = "emails" → searchB EMAIL_PATTERN m = true) ∧
    (kv.1 = "phones" → (PHONE_PATTERNS.any fun p => searchB p m) = true) ∧
    (kv.1 = "social" → (SOCIAL_PATTERNS.any fun p => searchB p m) = true) := by
  unfold detect_contact_info detectWith at hkv
  by_cases hft : pyFalsy (some t) = true
  · rw [if_pos hft] at hkv
    simp at hkv
  · rw [if_neg hft] at hkv
    simp only [List.mem_cons, List.not_mem_nil, or_false] at hkv
    rcases hkv with rfl | rfl | rfl
    · refine ⟨fun _ => ?_, fun hco => by simp at hco, fun hco => by simp at hco⟩
      obtain ⟨mc, hmc, rfl⟩ := List.mem_map.mp hm
      exact rematch_search (fun pre mid rest h => matches_ctxFree h (by decide) [] []) hmc
    · refine ⟨fun hco => by simp at hco, fun _ => ?_, fun hco => by simp at hco⟩
      obtain ⟨p, hp, hmp⟩ := mem_concatMap.mp (List.mem_dedup.mp hm)
      obtain ⟨mc, hmc, rfl⟩ := List.mem_map.mp hmp
      exact List.any_eq_true.mpr ⟨p, hp, rematch_search (rematch_phone p hp) hmc⟩
    · refine ⟨fun hco => by simp at hco, fun hco => by simp at hco, fun _ => ?_⟩
      obtain ⟨p, hp, hmp⟩ := mem_concatMap.mp (List.mem_dedup.mp hm)
      obtain ⟨mc, hmc, rfl⟩ := List.mem_map.mp hmp
      exact List.any_eq_true.mpr ⟨p, hp, rematch_search (rematch_social p hp) hmc⟩

/-- Witness for reported_rematches at a concrete email input. -/
theorem reported_rematches_witness :
    (("emails", ["a@b.ph"]) ∈ (detect_contact_info (some "a@b.ph")).details) ∧
    (("a@b.ph" : String) ∈ ["a@b.ph"]) ∧
    ((("emails" : String) = "emails" → searchB EMAIL_PATTERN "a@b.ph" = true) ∧
      (("emails" : String) = "phones" → (PHONE_PATTERNS.any fun p => searchB p "a@b.ph") = true) ∧
      (("emails" : String) = "social" → (SOCIAL_PATTERNS.any fun p => searchB p "a@b.ph") = true)) :=
  ⟨by decide, by decide,
    reported_rematches "a@b.ph" ("emails", ["a@b.ph"]) (by decide) "a@b.ph" (by decide)⟩

/-- Concatenation of character lists lifts to strings. -/
theorem substring_lift {t : String} {u mc v : List Char} (huv : u ++ mc ++ v = t.data) :
    String.mk u ++ String.mk mc ++ String.mk v = t := by
  apply String.ext
  simpa [String.data_append] using huv

/-- C10: every string reported in any category list of the detailed
result is a contiguous substring of the input text. -/
theorem reported_substring (t : String) (kv : String × List String)
    (hkv : kv ∈ (detect_contact_info (some t)).details) (m : String) (hm : m ∈ kv.2) :
    ∃ u v : String, u ++ m ++ v = t := by
  unfold detect_contact_info detectWith at hkv
  by_cases hft : pyFalsy (some t) = true
  · rw [if_pos hft] at hkv
    simp at hkv
  · rw [if_neg hft] at hkv
    simp only [List.mem_cons, List.not_mem_nil, or_false] at hkv
    have main : ∀ P : Pat, m ∈ findallStr P t → ∃ u v : String, u ++ m ++ v = t := by
      intro P hmp
      obtain ⟨mc, hmc, rfl⟩ := List.mem_map.mp hmp
      obtain ⟨⟨u, v, huv⟩, -⟩ := findall_spec hmc
      exact ⟨String.mk u, String.mk v, substring_lift huv⟩
    rcases hkv with rfl | rfl | rfl
    · exact main EMAIL_PATTERN hm
    · obtain ⟨p, hp, hmp⟩ := mem_concatMap.mp (List.mem_dedup.mp hm)
      exact main p hmp
    · obtain ⟨p, hp, hmp⟩ := mem_concatMap.mp (List.mem_dedup.mp hm)
      exact main p hmp

/-- Witness for reported_substring at a concrete input. -/
theorem reported_substring_witness :
    (("emails", ["a@b.ph"]) ∈ (detect_contact_info (some "a@b.ph")).details) ∧
    (("a@b.ph" : String) ∈ ["a@b.ph"]) ∧
    ∃ u v : String, u ++ "a@b.ph" ++ v = "a@b.ph" :=
  ⟨by decide, by decide,
    reported_substring "a@b.ph" ("emails", ["a@b.ph"]) (by decide) "a@b.ph" (by decide)⟩

/-- C2, counterexample: on an input holding the same email twice, the
email list of the details dict holds a duplicate entry, so not every
category list holds distinct strings. -/
theorem category_lists_distinct_cx :
    ((detect_contact_info (some "a@b.com a@b.com")).details.all fun kv =>
      decide kv.2.Nodup) = false := by
  decide

/-- C2 amended: the phone and social lists of the details dict hold
distinct strings; the email list is the raw findall output and may repeat
a substring that occurs twice in the text. -/
theorem phone_social_nodup (text : Option String) (kv : String × List String)
    (hkv : kv ∈ (detect_contact_info text).details)
    (hname : kv.1 = "phones" ∨ kv.1 = "social") : kv.2.Nodup := by
  unfold detect_contact_info detectWith at hkv
  by_cases hft : pyFalsy text = true
  · rw [if_pos hft] at hkv
    simp at hkv
  · rw [if_neg hft] at hkv
    simp only [List.mem_cons, List.not_mem_nil, or_false] at hkv
    rcases hkv with rfl | rfl | rfl
    · rcases hname with h | h <;> simp at h
    · exact List.nodup_dedup _
    · exact List.nodup_dedup _

/-- Witness for phone_social_nodup at a concrete input. -/
theorem phone_social_nodup_witness :
    (("phones", ([] : List String)) ∈ (detect_contact_info (some "x")).details) ∧
    ((("phones" : String) = "phones" ∨ ("phones" : String) = "social")) ∧
    ([] : List String).Nodup :=
  ⟨by decide, Or.inl rfl,
    phone_social_nodup (some "x") ("phones", []) (by decide) (Or.inl rfl)⟩

/-- C7: the email scenario reports a positive flag and exactly the one
matched email address in the email category. -/
theorem scenario_email :
    (detect_contact_info (some "Contact me at john.doe@email.com")).has_contact_info = true ∧
    ("emails", ["john.doe@email.com"]) ∈
      (detect_contact_info (some "Contact me at john.doe@email.com")).details := by
  constructor
  · decide
  · decide

/-- C8, counterexample: no category list of the handle scenario holds the
bare entry for the handle; the reported entry carries the preceding
delimiter character. -/
theorem scenario_handle_cx :
    ((detect_contact_info (some "Follow @johndoe on Twitter")).details.any fun kv =>
      kv.2.contains "@johndoe") = false := by
  decide

/-- C8 amended: the handle scenario reports a positive flag, and the
social list holds the matched substring with the preceding space, since
the left context group of the handle regex is part of the match. -/
theorem scenario_handle :
    (detect_contact_info (some "Follow @johndoe on Twitter")).has_contact_info = true ∧
    ("social", [" @johndoe"]) ∈
      (detect_contact_info (some "Follow @johndoe on Twitter")).details := by
  constructor
  · decide
  · decide

/-- Witness for quick_order at a concrete input. -/
theorem quick_order_witness :
    (("a" : String) ≠ "") ∧
    ((contains_contact_info (some "a") =
      (searchB EMAIL_PATTERN "a" || (PHONE_PATTERNS.any fun p => searchB p "a") ||
        (SOCIAL_PATTERNS.any fun p => searchB p "a"))) ∧
      (searchB EMAIL_PATTERN "a" = true → containsWith EMAIL_PATTERN [] [] (some "a") = true) ∧
      (searchB EMAIL_PATTERN "a" = false →
        containsWith EMAIL_PATTERN PHONE_PATTERNS [] (some "a") =
          ((PHONE_PATTERNS.any fun p => searchB p "a") ||
            (([] : List Pat).any fun p => searchB p "a")))) :=
  ⟨by decide, quick_order "a" (by decide) [] []⟩
